import Mathlib

/-!
Verification of the template-configuration engine (`kern`).

The definitions below are shallow embeddings of the JavaScript/TypeScript
source (`src/lib/utils/features.ts` and its JavaScript variant):
  * pattern normalization and file/directory removal (`removeFiles`),
  * the dependency resolver (`updateDependencies`),
  * the JSON and source-embedded manifest patchers (`updateManifest`),
  * the configuration loader (`loadTemplateConfig`),
  * layer-key discovery as performed by the three consumers.

JavaScript objects are modelled as association lists (key-iteration order
is insertion order, which the list order mirrors); JS `Set`s are modelled
as lists where only membership matters; the filesystem is modelled as a
finite association list from path strings to a node type as reported by a
non-following `lstat`.
-/

namespace Kern

/-! ## Generic association-list operations (JS object access) -/

/-- Association-list lookup; models JS property access `obj[k]`
(`none` models `undefined`). -/
def lookupA {α : Type} : List (String × α) → String → Option α
  | [], _ => none
  | (k, v) :: t, q => if k = q then some v else lookupA t q

/-- Models JS `delete obj[k]`: every binding of `k` disappears
(a JS object holds at most one binding per key). -/
def eraseA {α : Type} : List (String × α) → String → List (String × α)
  | [], _ => []
  | (k', v) :: t, k => if k' = k then eraseA t k else (k', v) :: eraseA t k

/-- Models JS assignment `obj[k] = v`: overwrite the binding of `k`
if present, otherwise append a new binding. -/
def setA {α : Type} : List (String × α) → String → α → List (String × α)
  | [], k, v => [(k, v)]
  | (k', w) :: t, k, v => if k' = k then (k', v) :: t else (k', w) :: setA t k v

theorem lookupA_eraseA {α : Type} :
    ∀ (m : List (String × α)) (k q : String),
      lookupA (eraseA m k) q = if q = k then none else lookupA m q := by
  intro m
  induction m with
  | nil => intro k q; simp [eraseA, lookupA]
  | cons e t ih =>
    intro k q
    obtain ⟨k', v⟩ := e
    by_cases hk : k' = k
    · subst hk
      by_cases hq : q = k'
      · subst hq; simp [eraseA, lookupA, ih]
      · have h2 : ¬ k' = q := fun h => hq h.symm
        simp [eraseA, lookupA, h2, hq, ih]
    · by_cases hq : q = k'
      · subst hq
        have hqk : ¬ q = k := hk
        simp [eraseA, hk, lookupA, hqk]
      · have h2 : ¬ k' = q := fun h => hq h.symm
        simp [eraseA, hk, lookupA, h2, ih]

theorem lookupA_setA {α : Type} :
    ∀ (m : List (String × α)) (k q : String) (v : α),
      lookupA (setA m k v) q = if q = k then some v else lookupA m q := by
  intro m
  induction m with
  | nil =>
    intro k q v
    by_cases hq : q = k
    · subst hq; simp [setA, lookupA]
    · have hk : ¬ k = q := fun h => hq h.symm
      simp [setA, lookupA, hq, hk]
  | cons e t ih =>
    intro k q v
    obtain ⟨k', w⟩ := e
    by_cases hk : k' = k
    · subst hk
      by_cases hq : q = k'
      · subst hq; simp [setA, lookupA]
      · have h2 : ¬ k' = q := fun h => hq h.symm
        simp [setA, lookupA, h2, hq]
    · by_cases hq : k' = q
      · subst hq
        simp [setA, hk, lookupA]
      · simp [setA, hk, lookupA, hq, ih]

/-! ## String search and first-occurrence replacement

`String.prototype.replace(searchString, replacement)` in JavaScript
replaces only the **first** occurrence of `searchString`.  Strings are
modelled as their character lists. -/

/-- Index of the first occurrence of `pat` in `s` (JS `indexOf`). -/
def findSub (pat : List Char) : List Char → Option Nat
  | [] => if pat <+: ([] : List Char) then some 0 else none
  | c :: t => if pat <+: (c :: t) then some 0 else (findSub pat t).map (· + 1)

/-- JS `s.replace(pat, '')`: delete the first occurrence of `pat`, if any. -/
def jsReplaceFirst (s pat : List Char) : List Char :=
  match findSub pat s with
  | none => s
  | some j => s.take j ++ s.drop (j + pat.length)

theorem findSub_some_matches (pat : List Char) :
    ∀ (s : List Char) (j : Nat), findSub pat s = some j → pat <+: s.drop j := by
  intro s
  induction s with
  | nil =>
    intro j h
    simp only [findSub] at h
    by_cases hp : pat <+: ([] : List Char)
    · rw [if_pos hp] at h
      injection h with h; subst h
      simpa using hp
    · rw [if_neg hp] at h; exact absurd h (by simp)
  | cons c t ih =>
    intro j h
    simp only [findSub] at h
    by_cases hp : pat <+: (c :: t)
    · rw [if_pos hp] at h
      injection h with h; subst h
      simpa using hp
    · rw [if_neg hp, Option.map_eq_some'] at h
      obtain ⟨j', hj', hjj⟩ := h
      subst hjj
      simpa using ih j' hj'

theorem findSub_some_minimal (pat : List Char) :
    ∀ (s : List Char) (j : Nat), findSub pat s = some j →
      ∀ i, i < j → ¬ pat <+: s.drop i := by
  intro s
  induction s with
  | nil =>
    intro j h i hij
    simp only [findSub] at h
    by_cases hp : pat <+: ([] : List Char)
    · rw [if_pos hp] at h
      injection h with h
      omega
    · rw [if_neg hp] at h; exact absurd h (by simp)
  | cons c t ih =>
    intro j h i hij
    simp only [findSub] at h
    by_cases hp : pat <+: (c :: t)
    · rw [if_pos hp] at h
      injection h with h
      omega
    · rw [if_neg hp, Option.map_eq_some'] at h
      obtain ⟨j', hj', hjj⟩ := h
      subst hjj
      cases i with
      | zero => simpa using hp
      | succ i' => simpa using ih j' hj' i' (by omega)

theorem findSub_eq_some (pat : List Char) :
    ∀ (s : List Char) (j : Nat), pat <+: s.drop j →
      (∀ i, i < j → ¬ pat <+: s.drop i) → findSub pat s = some j := by
  intro s
  induction s with
  | nil =>
    intro j hmatch hmin
    cases j with
    | zero =>
      simp only [findSub]
      rw [if_pos (by simpa using hmatch)]
    | succ j' =>
      exact absurd (by simpa using hmatch : pat <+: ([] : List Char))
        (by simpa using hmin 0 (Nat.succ_pos _))
  | cons c t ih =>
    intro j hmatch hmin
    cases j with
    | zero =>
      simp only [findSub]
      rw [if_pos (by simpa using hmatch)]
    | succ j' =>
      have hnot0 : ¬ pat <+: (c :: t) := by simpa using hmin 0 (Nat.succ_pos _)
      simp only [findSub]
      rw [if_neg hnot0]
      have hrec : findSub pat t = some j' :=
        ih j' (by simpa using hmatch) (fun i hi => by simpa using hmin (i + 1) (by omega))
      rw [hrec]; rfl

theorem findSub_eq_none (pat : List Char) :
    ∀ (s : List Char), (∀ i, ¬ pat <+: s.drop i) → findSub pat s = none := by
  intro s
  induction s with
  | nil =>
    intro h
    simp only [findSub]
    rw [if_neg (by simpa using h 0)]
  | cons c t ih =>
    intro h
    simp only [findSub]
    rw [if_neg (by simpa using h 0), ih (fun i => by simpa using h (i + 1))]
    rfl

/-! ## Removal Engine: pattern normalization (`removeFiles`, features.ts:160-166)

Source:
```
const isDirectoryPattern = itemPattern.endsWith('/**/') || itemPattern.endsWith('/**/*');
const normalizedPattern = itemPattern.replace('/**/*', '').replace('/**/', '');
const fullPath = path.join(projectDir, normalizedPattern);
```
-/

/-- The character list of the marker `/**/`. -/
def dirMark4 : List Char := ['/', '*', '*', '/']

/-- The character list of the marker `/**/*`. -/
def dirMark5 : List Char := ['/', '*', '*', '/', '*']

/-- `itemPattern.endsWith('/**/') || itemPattern.endsWith('/**/*')`. -/
def isDirectoryPattern (p : String) : Bool :=
  decide (dirMark4 <:+ p.data) || decide (dirMark5 <:+ p.data)

/-- `itemPattern.replace('/**/*', '').replace('/**/', '')` — JS `replace`
with a string argument removes only the first occurrence. -/
def normalizedPattern (p : String) : String :=
  ⟨jsReplaceFirst (jsReplaceFirst p.data dirMark5) dirMark4⟩

/-- Path join as used for `path.join(projectDir, normalizedPattern)`;
modelled as separator concatenation (all reasoning concerns the pattern
component, never the normalization `path.join` performs on `projectDir`). -/
def pathJoin (a b : String) : String := a ++ "/" ++ b

/-- The filesystem path `removeFiles` operates on. -/
def fsPathOf (projectDir pat : String) : String := pathJoin projectDir (normalizedPattern pat)

/-- Definition following the spec's words (§4.3), for comparison with the
implementation: strip only a *trailing* `/**/*` or `/**/` suffix, leave
any other pattern (including one with a mid-pattern marker) unchanged. -/
def specStripTrailing (p : String) : String :=
  if dirMark5 <:+ p.data then ⟨p.data.take (p.data.length - 5)⟩
  else if dirMark4 <:+ p.data then ⟨p.data.take (p.data.length - 4)⟩
  else p

theorem dirMark4_prefix_dirMark5 : dirMark4 <+: dirMark5 := by decide

theorem jsReplaceFirst_of_some (s pat : List Char) (j : Nat) (h : findSub pat s = some j) :
    jsReplaceFirst s pat = s.take j ++ s.drop (j + pat.length) := by
  unfold jsReplaceFirst
  rw [h]

theorem jsReplaceFirst_of_none (s pat : List Char) (h : findSub pat s = none) :
    jsReplaceFirst s pat = s := by
  unfold jsReplaceFirst
  rw [h]

theorem norm_strip_sl5 (q p : List Char) (hp : p = q ++ dirMark5)
    (hfirst : findSub dirMark4 p = some q.length) :
    jsReplaceFirst (jsReplaceFirst p dirMark5) dirMark4 = q := by
  have h5 : findSub dirMark5 p = some q.length := by
    apply findSub_eq_some
    · rw [hp, List.drop_left]
    · intro i hi hcon
      exact findSub_some_minimal dirMark4 p q.length hfirst i hi
        (dirMark4_prefix_dirMark5.trans hcon)
  have step1 : jsReplaceFirst p dirMark5 = q := by
    rw [jsReplaceFirst_of_some p dirMark5 q.length h5, hp]
    have htake : (q ++ dirMark5).take q.length = q := List.take_left q dirMark5
    have hdrop : (q ++ dirMark5).drop (q.length + dirMark5.length) = [] := by
      apply List.drop_eq_nil_of_le
      simp [dirMark5]
    rw [htake, hdrop, List.append_nil]
  rw [step1]
  have hnone : findSub dirMark4 q = none := by
    apply findSub_eq_none
    intro i hcon
    have hle : 4 ≤ q.length - i := by
      have := hcon.length_le
      simpa [dirMark4, List.length_drop] using this
    have hi : i < q.length := by omega
    have hcon' : dirMark4 <+: p.drop i := by
      rw [hp, List.drop_append_of_le_length (le_of_lt hi)]
      exact hcon.trans (List.prefix_append _ _)
    exact findSub_some_minimal dirMark4 p q.length hfirst i hi hcon'
  exact jsReplaceFirst_of_none q dirMark4 hnone

theorem norm_strip_sl4 (q p : List Char) (hp : p = q ++ dirMark4)
    (hfirst : findSub dirMark4 p = some q.length) :
    jsReplaceFirst (jsReplaceFirst p dirMark5) dirMark4 = q := by
  have h5 : findSub dirMark5 p = none := by
    apply findSub_eq_none
    intro i hcon
    have hplen : p.length = q.length + 4 := by
      rw [hp]; simp [dirMark4]
    have hle : 5 ≤ p.length - i := by
      have := hcon.length_le
      simpa [dirMark5, List.length_drop] using this
    have hi : i < q.length := by omega
    exact findSub_some_minimal dirMark4 p q.length hfirst i hi
      (dirMark4_prefix_dirMark5.trans hcon)
  rw [jsReplaceFirst_of_none p dirMark5 h5,
    jsReplaceFirst_of_some p dirMark4 q.length hfirst, hp]
  have htake : (q ++ dirMark4).take q.length = q := List.take_left q dirMark4
  have hdrop : (q ++ dirMark4).drop (q.length + dirMark4.length) = [] := by
    apply List.drop_eq_nil_of_le
    simp [dirMark4]
  rw [htake, hdrop, List.append_nil]

/-- C3 (amended).  The directory-intent flag is set exactly when the
pattern ends with `/**/` or `/**/*`.  The literal path is recovered by
stripping the trailing suffix only when the pattern's *first* occurrence
of `/**/` is the one inside that trailing suffix (JS `replace` with a
string argument removes the first occurrence, not the trailing one); in
that case `removeFiles` operates on `projectDir` joined with the stripped
pattern. -/
theorem C3_pattern_normalization (p q : String) :
    (isDirectoryPattern p = true ↔
      (∃ r : String, p = r ++ "/**/") ∨ (∃ r : String, p = r ++ "/**/*"))
    ∧ (p.data = q.data ++ dirMark5 → findSub dirMark4 p.data = some q.data.length →
        normalizedPattern p = q ∧ ∀ d : String, fsPathOf d p = pathJoin d q)
    ∧ (p.data = q.data ++ dirMark4 → findSub dirMark4 p.data = some q.data.length →
        normalizedPattern p = q ∧ ∀ d : String, fsPathOf d p = pathJoin d q) := by
  refine ⟨?_, ?_, ?_⟩
  · unfold isDirectoryPattern
    rw [Bool.or_eq_true, decide_eq_true_iff, decide_eq_true_iff]
    constructor
    · rintro (⟨t, ht⟩ | ⟨t, ht⟩)
      · refine Or.inl ⟨⟨t⟩, String.ext ?_⟩
        rw [String.data_append]
        exact ht.symm
      · refine Or.inr ⟨⟨t⟩, String.ext ?_⟩
        rw [String.data_append]
        exact ht.symm
    · rintro (⟨r, hr⟩ | ⟨r, hr⟩)
      · exact Or.inl ⟨r.data, by rw [hr, String.data_append]; rfl⟩
      · exact Or.inr ⟨r.data, by rw [hr, String.data_append]; rfl⟩
  · intro hp hfirst
    have hn : normalizedPattern p = q :=
      String.ext (norm_strip_sl5 q.data p.data hp hfirst)
    exact ⟨hn, fun d => by rw [fsPathOf, hn]⟩
  · intro hp hfirst
    have hn : normalizedPattern p = q :=
      String.ext (norm_strip_sl4 q.data p.data hp hfirst)
    exact ⟨hn, fun d => by rw [fsPathOf, hn]⟩

/-- Witness for `C3_pattern_normalization` at a concrete pattern. -/
theorem C3_pattern_normalization_witness :
    isDirectoryPattern "src/assets/**/*" = true ∧
    normalizedPattern "src/assets/**/*" = "src/assets" := by
  have h := C3_pattern_normalization "src/assets/**/*" "src/assets"
  refine ⟨h.1.mpr (Or.inr ⟨"src/assets", by decide⟩), (h.2.1 (by decide) (by decide)).1⟩

/-- C3 counterexample.  For `a/**/b/**/` the claim demands the trailing
`/**/` be stripped (yielding `a/**/b`) and the mid-pattern marker kept,
but the code removes the *first* occurrence, producing `ab/**/`. -/
theorem C3_counterexample :
    isDirectoryPattern "a/**/b/**/" = true ∧
    normalizedPattern "a/**/b/**/" = "ab/**/" ∧
    specStripTrailing "a/**/b/**/" = "a/**/b" ∧
    normalizedPattern "a/**/b/**/" ≠ specStripTrailing "a/**/b/**/" := by
  refine ⟨by decide, by decide, by decide, by decide⟩

/-! ## Removal Engine: filesystem action (`removeFiles`, features.ts:168-192)

The filesystem is a finite map from path strings to the node type reported
by a non-following `lstat` (`fs.lstat`): regular file, directory, or
anything else (e.g. a symbolic link).  `fs.pathExists` is lookup success,
and `fs.remove` (fs-extra/rimraf) deletes the path and everything under it,
succeeding silently when the path is absent. -/

/-- Node type as reported by `lstat` (which does not follow symlinks). -/
inductive FsType
  | file
  | dir
  | other
deriving DecidableEq

/-- A filesystem tree: paths with their `lstat` types. -/
abbrev FileSys := List (String × FsType)

/-- `q` equals `p` or lies strictly below directory `p`. -/
def isUnder (p q : String) : Bool :=
  decide (q = p) || List.isPrefixOf (p ++ "/").data q.data

/-- `fs.remove(p)` (fs-extra): delete `p` and everything under it. -/
def fsRemove (fs : FileSys) (p : String) : FileSys :=
  fs.filter (fun e => ! isUnder p e.1)

/-- The body of `removeFiles` after path resolution (features.ts:168-192):
if the path is absent, do nothing; if `lstat` reports a directory, remove
it recursively; if it reports a regular file, remove it unless the pattern
claimed a directory; otherwise (type mismatch) leave it alone. -/
def removeFilesAt (fs : FileSys) (full : String) (isDirPattern : Bool) : FileSys :=
  match lookupA fs full with
  | none => fs
  | some .dir => fsRemove fs full
  | some .file => if isDirPattern then fs else fsRemove fs full
  | some .other => fs

/-- `removeFiles(projectDir, itemPattern)`: normalize the pattern, resolve
it against the project directory, and apply the removal policy. -/
def removeFiles (fs : FileSys) (projectDir pat : String) : FileSys :=
  removeFilesAt fs (fsPathOf projectDir pat) (isDirectoryPattern pat)

theorem lookupA_fsRemove (fs : FileSys) (p q : String) :
    lookupA (fsRemove fs p) q = if isUnder p q then none else lookupA fs q := by
  unfold fsRemove
  induction fs with
  | nil => by_cases h : isUnder p q <;> simp [lookupA, h]
  | cons e t ih =>
    obtain ⟨k, v⟩ := e
    by_cases hk : isUnder p k
    · by_cases hq : k = q
      · subst hq; simp [List.filter_cons, hk, lookupA, ih]
      · simp [List.filter_cons, hk, lookupA, hq, ih]
    · by_cases hq : k = q
      · subst hq; simp [List.filter_cons, hk, lookupA, ih]
      · simp [List.filter_cons, hk, lookupA, hq, ih]

theorem isUnder_self (p : String) : isUnder p p = true := by
  simp [isUnder]

theorem lookupA_removeFilesAt_self (fs : FileSys) (full : String) (b : Bool) :
    lookupA fs full = none ∨
      lookupA (removeFilesAt fs full b) full = lookupA fs full ∨
      lookupA (removeFilesAt fs full b) full = none := by
  unfold removeFilesAt
  cases h : lookupA fs full with
  | none => exact Or.inl rfl
  | some ty =>
    cases ty with
    | file =>
      cases b with
      | true => simp [h]
      | false => simp [h, lookupA_fsRemove, isUnder_self]
    | dir => simp [h, lookupA_fsRemove, isUnder_self]
    | other => simp [h]

/-- C7: a pattern whose resolved path does not exist leaves the whole
tree unchanged (and the operation is total — the source logs and
returns). -/
theorem C7_absent_path_noop (fs : FileSys) (projectDir pat : String)
    (h : lookupA fs (fsPathOf projectDir pat) = none) :
    removeFiles fs projectDir pat = fs := by
  unfold removeFiles removeFilesAt
  rw [h]

/-- Witness for `C7_absent_path_noop`. -/
theorem C7_absent_path_noop_witness :
    removeFiles [("proj/src/app.ts", FsType.file)] "proj" "src/missing.ts"
      = [("proj/src/app.ts", FsType.file)] :=
  C7_absent_path_noop _ _ _ (by decide)

/-- C4: at an existing resolved path, a directory is removed recursively
whether or not the pattern carried a directory suffix, while a regular
file is removed exactly when the pattern carried no trailing `/**/` or
`/**/*` suffix, and is left untouched when it did. -/
theorem C4_existing_path_policy (fs : FileSys) (projectDir pat : String) :
    (lookupA fs (fsPathOf projectDir pat) = some FsType.dir →
      removeFiles fs projectDir pat = fsRemove fs (fsPathOf projectDir pat) ∧
      ∀ q, isUnder (fsPathOf projectDir pat) q = true →
        lookupA (removeFiles fs projectDir pat) q = none)
    ∧ (lookupA fs (fsPathOf projectDir pat) = some FsType.file →
        removeFiles fs projectDir pat =
          if isDirectoryPattern pat then fs
          else fsRemove fs (fsPathOf projectDir pat)) := by
  constructor
  · intro h
    have heq : removeFiles fs projectDir pat = fsRemove fs (fsPathOf projectDir pat) := by
      unfold removeFiles removeFilesAt
      rw [h]
    refine ⟨heq, fun q hq => ?_⟩
    rw [heq, lookupA_fsRemove, if_pos hq]
  · intro h
    unfold removeFiles removeFilesAt
    rw [h]

/-- Witness for `C4_existing_path_policy`: a directory is removed with its
contents even for a plain pattern, and a file is spared by a
directory-suffixed pattern. -/
theorem C4_existing_path_policy_witness :
    removeFiles [("p/d", FsType.dir), ("p/d/x.ts", FsType.file)] "p" "d"
      = [] ∧
    removeFiles [("p/f", FsType.file)] "p" "f/**/*" = [("p/f", FsType.file)] := by
  constructor
  · have h := (C4_existing_path_policy
      [("p/d", FsType.dir), ("p/d/x.ts", FsType.file)] "p" "d").1 (by decide)
    rw [h.1]; decide
  · have h := (C4_existing_path_policy [("p/f", FsType.file)] "p" "f/**/*").2 (by decide)
    rw [h]; decide

/-- C10: an existing resolved path that `lstat` reports as neither a
regular file nor a directory (e.g. a symbolic link) is left alone, and
the tree is unchanged. -/
theorem C10_other_type_noop (fs : FileSys) (projectDir pat : String)
    (h : lookupA fs (fsPathOf projectDir pat) = some FsType.other) :
    removeFiles fs projectDir pat = fs := by
  unfold removeFiles removeFilesAt
  rw [h]

/-- Witness for `C10_other_type_noop`. -/
theorem C10_other_type_noop_witness :
    removeFiles [("p/link", FsType.other)] "p" "link" = [("p/link", FsType.other)] :=
  C10_other_type_noop _ _ _ (by decide)

/-! ## Removal Engine: idempotence of the removal pass (C6)

The pass over unselected items (`applyTemplateConfig`, features.ts:98-114)
runs `removeFiles` once per `files[]` entry and once per `directories[]`
entry of every unselected item, in document order. -/

/-- A dependency entry of an item: `{ name, version?, dev? }`. -/
structure Dep where
  name : String
  version : Option String := none
  dev : Bool := false
deriving DecidableEq

/-- The per-item fields consumed by the engines under verification. -/
structure Item where
  files : List String := []
  directories : List String := []
  dependencies : List Dep := []
deriving DecidableEq

/-- Removal patterns of one item, in source order: `files` then
`directories` (features.ts:103-114). -/
def itemPats (it : Item) : List String := it.files ++ it.directories

/-- Fold of `removeFiles` over a pattern list. -/
def patPass (fs : FileSys) (projectDir : String) (pats : List String) : FileSys :=
  pats.foldl (fun f pat => removeFiles f projectDir pat) fs

/-- The Removal Engine pass: all file and directory removals for a list of
unselected items. -/
def itemRemovalPass (fs : FileSys) (projectDir : String) (items : List Item) : FileSys :=
  items.foldl (fun f it => (itemPats it).foldl (fun f2 pat => removeFiles f2 projectDir pat) f) fs

/-- `W` refines `Z`: every path of `W` is absent or bound as in `Z`.
Removals only ever delete entries, so every engine state reached from `Z`
refines `Z`. -/
def subFS (W Z : FileSys) : Prop :=
  ∀ q, lookupA W q = none ∨ lookupA W q = lookupA Z q

theorem subFS_refl (Z : FileSys) : subFS Z Z := fun _ => Or.inr rfl

theorem subFS_trans {A B C : FileSys} (h1 : subFS A B) (h2 : subFS B C) : subFS A C := by
  intro q
  rcases h1 q with h | h
  · exact Or.inl h
  · rcases h2 q with h' | h'
    · exact Or.inl (h.trans h')
    · exact Or.inr (h.trans h')

theorem subFS_fsRemove (fs : FileSys) (p : String) : subFS (fsRemove fs p) fs := by
  intro q
  rw [lookupA_fsRemove]
  by_cases h : isUnder p q <;> simp [h]

theorem subFS_removeFilesAt (fs : FileSys) (full : String) (b : Bool) :
    subFS (removeFilesAt fs full b) fs := by
  unfold removeFilesAt
  cases h : lookupA fs full with
  | none => exact subFS_refl fs
  | some ty =>
    cases ty with
    | file =>
      cases b with
      | true => exact subFS_refl fs
      | false => exact subFS_fsRemove fs full
    | dir => exact subFS_fsRemove fs full
    | other => exact subFS_refl fs

theorem subFS_removeFiles (fs : FileSys) (projectDir pat : String) :
    subFS (removeFiles fs projectDir pat) fs :=
  subFS_removeFilesAt fs _ _

theorem subFS_patPass (projectDir : String) :
    ∀ (pats : List String) (fs : FileSys), subFS (patPass fs projectDir pats) fs := by
  intro pats
  induction pats with
  | nil => intro fs; exact subFS_refl fs
  | cons pat t ih =>
    intro fs
    have h1 : subFS (removeFiles fs projectDir pat) fs := subFS_removeFiles fs projectDir pat
    exact subFS_trans (ih (removeFiles fs projectDir pat)) h1

/-- The shapes a path can have at its own resolved location right after
`removeFiles` ran for its pattern: gone, or skipped as a file matched by a
directory pattern, or skipped as an `other` node. -/
theorem lookupA_removeFiles_self (Z : FileSys) (projectDir pat : String) :
    lookupA (removeFiles Z projectDir pat) (fsPathOf projectDir pat) = none ∨
      (lookupA (removeFiles Z projectDir pat) (fsPathOf projectDir pat) = some FsType.file ∧
        isDirectoryPattern pat = true) ∨
      lookupA (removeFiles Z projectDir pat) (fsPathOf projectDir pat) = some FsType.other := by
  unfold removeFiles removeFilesAt
  cases hz : lookupA Z (fsPathOf projectDir pat) with
  | none => exact Or.inl hz
  | some ty =>
    cases ty with
    | dir => exact Or.inl (by rw [lookupA_fsRemove, if_pos (isUnder_self _)])
    | other => exact Or.inr (Or.inr hz)
    | file =>
      cases hb : isDirectoryPattern pat with
      | true => exact Or.inr (Or.inl ⟨by rw [if_pos rfl]; exact hz, rfl⟩)
      | false =>
        refine Or.inl ?_
        rw [if_neg (by simp)]
        rw [lookupA_fsRemove, if_pos (isUnder_self _)]


/-- `removeFiles` is a no-op whenever its own path is in one of the
skipped shapes. -/
theorem removeFiles_noop_of_lookup (W : FileSys) (projectDir pat : String)
    (h : lookupA W (fsPathOf projectDir pat) = none ∨
      (lookupA W (fsPathOf projectDir pat) = some FsType.file ∧
        isDirectoryPattern pat = true) ∨
      lookupA W (fsPathOf projectDir pat) = some FsType.other) :
    removeFiles W projectDir pat = W := by
  unfold removeFiles removeFilesAt
  rcases h with h | ⟨h, hb⟩ | h
  · rw [h]
  · rw [h, if_pos hb]
  · rw [h]

/-- Once `removeFiles` has run for a pattern, any later engine state keeps
that pattern a no-op: the path is gone, or it survived with a type the
policy skips, and subsequent removals never resurrect or retype paths. -/
theorem removeFiles_stable (Z W : FileSys) (projectDir pat : String)
    (hsub : subFS W (removeFiles Z projectDir pat)) :
    removeFiles W projectDir pat = W := by
  apply removeFiles_noop_of_lookup
  rcases hsub (fsPathOf projectDir pat) with h | h
  · exact Or.inl h
  · rcases lookupA_removeFiles_self Z projectDir pat with h1 | ⟨h1, hb⟩ | h1
    · exact Or.inl (h.trans h1)
    · exact Or.inr (Or.inl ⟨h.trans h1, hb⟩)
    · exact Or.inr (Or.inr (h.trans h1))

theorem patPass_fix (projectDir : String) :
    ∀ (pats : List String) (W : FileSys),
      (∀ pat ∈ pats, removeFiles W projectDir pat = W) → patPass W projectDir pats = W := by
  intro pats
  induction pats with
  | nil => intro W _; rfl
  | cons pat t ih =>
    intro W h
    have h0 : removeFiles W projectDir pat = W := h pat (List.mem_cons_self pat t)
    show patPass (removeFiles W projectDir pat) projectDir t = W
    rw [h0]
    exact ih W (fun p hp => h p (List.mem_cons_of_mem pat hp))

theorem removeFiles_noop_after_pass (fs : FileSys) (projectDir pat : String)
    (pats : List String) (hmem : pat ∈ pats) :
    removeFiles (patPass fs projectDir pats) projectDir pat = patPass fs projectDir pats := by
  obtain ⟨l1, l2, rfl⟩ := List.append_of_mem hmem
  have hdecomp : patPass fs projectDir (l1 ++ pat :: l2) =
      patPass (removeFiles (patPass fs projectDir l1) projectDir pat) projectDir l2 := by
    unfold patPass
    rw [List.foldl_append]
    rfl
  rw [hdecomp]
  exact removeFiles_stable (patPass fs projectDir l1) _ projectDir pat
    (subFS_patPass projectDir l2 _)

theorem patPass_idempotent (fs : FileSys) (projectDir : String) (pats : List String) :
    patPass (patPass fs projectDir pats) projectDir pats = patPass fs projectDir pats :=
  patPass_fix projectDir pats _
    (fun pat hmem => removeFiles_noop_after_pass fs projectDir pat pats hmem)

theorem itemRemovalPass_eq_patPass (projectDir : String) :
    ∀ (items : List Item) (fs : FileSys),
      itemRemovalPass fs projectDir items =
        patPass fs projectDir (items.map itemPats).flatten := by
  intro items
  induction items with
  | nil => intro fs; rfl
  | cons it t ih =>
    intro fs
    show itemRemovalPass ((itemPats it).foldl _ fs) projectDir t = _
    rw [ih]
    unfold patPass
    rw [List.map_cons, List.flatten_cons, List.foldl_append]

/-- C6: applying the Removal Engine pass twice, for the same unselected
items, yields the same final tree as applying it once. -/
theorem C6_removal_pass_idempotent (fs : FileSys) (projectDir : String) (items : List Item) :
    itemRemovalPass (itemRemovalPass fs projectDir items) projectDir items =
      itemRemovalPass fs projectDir items := by
  rw [itemRemovalPass_eq_patPass, itemRemovalPass_eq_patPass]
  exact patPass_idempotent fs projectDir (items.map itemPats).flatten

/-! ## Manifest Patcher, JSON form (`updateManifest`, features.ts:374-385)

Source:
```
for (const key of keys) {
  if (!keep && manifest[key]) { delete manifest[key]; }
}
```
The guard `manifest[key]` is JS truthiness of the key's current value. -/

/-- A JSON value (`NaN` does not arise from `JSON.parse` of manifest
files; numbers are modelled as integers, which suffices for truthiness). -/
inductive JVal
  | jnull
  | jbool (b : Bool)
  | jnum (n : Int)
  | jstr (s : String)
  | jobj (fields : List (String × JVal))
  | jarr (elems : List JVal)

/-- JS truthiness of a JSON value. -/
def truthy : JVal → Bool
  | .jnull => false
  | .jbool b => b
  | .jnum n => decide (n ≠ 0)
  | .jstr s => decide (s ≠ "")
  | .jobj _ => true
  | .jarr _ => true

/-- One iteration of the key loop: `if (!keep && manifest[key]) delete`. -/
def manifestStep (m : List (String × JVal)) (k : String) (keep : Bool) : List (String × JVal) :=
  if !keep && ((lookupA m k).map truthy).getD false then eraseA m k else m

/-- The JSON branch of `updateManifest` over the parsed manifest object. -/
def updateManifestJson (m : List (String × JVal)) (keys : List String) (keep : Bool) :
    List (String × JVal) :=
  keys.foldl (fun m0 k => manifestStep m0 k keep) m

theorem manifestStep_lookup_falsy (m : List (String × JVal)) (k' k : String) (v : JVal)
    (hv : lookupA m k = some v) (hf : truthy v = false) :
    lookupA (manifestStep m k' false) k = some v := by
  unfold manifestStep
  by_cases hcond : ((lookupA m k').map truthy).getD false = true
  · rw [if_pos (by simp [hcond])]
    rw [lookupA_eraseA]
    by_cases hkk : k = k'
    · subst hkk
      rw [hv] at hcond
      simp [hf] at hcond
    · rw [if_neg hkk]
      exact hv
  · rw [if_neg (by simp [hcond])]
    exact hv

theorem updateManifestJson_falsy (keys : List String) :
    ∀ (m : List (String × JVal)) (k : String) (v : JVal),
      lookupA m k = some v → truthy v = false →
      lookupA (updateManifestJson m keys false) k = some v := by
  induction keys with
  | nil => intro m k v hv _; exact hv
  | cons k' t ih =>
    intro m k v hv hf
    show lookupA (updateManifestJson (manifestStep m k' false) t false) k = some v
    exact ih (manifestStep m k' false) k v (manifestStep_lookup_falsy m k' k v hv hf) hf

theorem updateManifestJson_none (keys : List String) :
    ∀ (m : List (String × JVal)) (k : String),
      lookupA m k = none → lookupA (updateManifestJson m keys false) k = none := by
  induction keys with
  | nil => intro m k h; exact h
  | cons k' t ih =>
    intro m k h
    show lookupA (updateManifestJson (manifestStep m k' false) t false) k = none
    apply ih
    unfold manifestStep
    by_cases hcond : (!false && ((lookupA m k').map truthy).getD false) = true
    · rw [if_pos hcond, lookupA_eraseA]
      by_cases hkk : k = k'
      · rw [if_pos hkk]
      · rw [if_neg hkk]; exact h
    · rw [if_neg hcond]; exact h

theorem updateManifestJson_truthy (keys : List String) :
    ∀ (m : List (String × JVal)) (k : String) (v : JVal),
      lookupA m k = some v → truthy v = true → k ∈ keys →
      lookupA (updateManifestJson m keys false) k = none := by
  induction keys with
  | nil => intro m k v _ _ hmem; cases hmem
  | cons k' t ih =>
    intro m k v hv ht hmem
    show lookupA (updateManifestJson (manifestStep m k' false) t false) k = none
    by_cases hkk : k = k'
    · subst hkk
      have hstep : lookupA (manifestStep m k false) k = none := by
        unfold manifestStep
        rw [if_pos (by simp [hv, ht]), lookupA_eraseA, if_pos rfl]
      exact updateManifestJson_none t _ k hstep
    · have hmem' : k ∈ t := by
        cases hmem with
        | head => exact absurd rfl hkk
        | tail _ h => exact h
      have hstep : lookupA (manifestStep m k' false) k = some v := by
        unfold manifestStep
        by_cases hcond : (!false && ((lookupA m k').map truthy).getD false) = true
        · rw [if_pos hcond, lookupA_eraseA, if_neg hkk]; exact hv
        · rw [if_neg hcond]; exact hv
      exact ih _ k v hstep ht hmem'

/-- C9: in the JSON form of the manifest patcher with `keep = false`, a
listed key bound to a falsy value (`false`, `0`, `""`, `null`) keeps its
original entry, while a listed key bound to a truthy value is deleted. -/
theorem C9_json_falsy_never_deleted (keys : List String) (m : List (String × JVal))
    (k : String) (v : JVal) (hv : lookupA m k = some v) :
    (truthy v = false → lookupA (updateManifestJson m keys false) k = some v)
    ∧ (truthy v = true → k ∈ keys → lookupA (updateManifestJson m keys false) k = none) :=
  ⟨fun hf => updateManifestJson_falsy keys m k v hv hf,
   fun ht hmem => updateManifestJson_truthy keys m k v hv ht hmem⟩

/-- Witness for `C9_json_falsy_never_deleted`: the key `flag`, bound to
`false` and named for removal, survives; the truthy key `page` is removed. -/
theorem C9_json_falsy_never_deleted_witness :
    lookupA (updateManifestJson
        [("flag", JVal.jbool false), ("page", JVal.jstr "options.html")]
        ["flag", "page"] false) "flag" = some (JVal.jbool false) ∧
    lookupA (updateManifestJson
        [("flag", JVal.jbool false), ("page", JVal.jstr "options.html")]
        ["flag", "page"] false) "page" = none := by
  constructor
  · exact (C9_json_falsy_never_deleted ["flag", "page"]
      [("flag", JVal.jbool false), ("page", JVal.jstr "options.html")]
      "flag" (JVal.jbool false) rfl).1 rfl
  · exact (C9_json_falsy_never_deleted ["flag", "page"]
      [("flag", JVal.jbool false), ("page", JVal.jstr "options.html")]
      "page" (JVal.jstr "options.html") rfl).2 rfl (by simp)

/-! ## Dependency Resolver (`updateDependencies`, features.ts:201-332)

`package.json`'s `dependencies` / `devDependencies` are JS objects mapping
package names to version strings.  The resolver
  1. seeds `required`/`requiredDev` with fixed core names,
  2. adds the names declared by selected items (per `dep.dev`),
  3. collects `possible`/`possibleDev` from every item of every
     non-reserved object-valued layer,
  4. deletes a name when it is possible, not required, and its current
     entry is truthy (`pkg.dependencies[dep]` — the empty string is falsy),
  5. writes the explicit `version` of every selected item's dependency
     (insert-or-overwrite).
-/

/-- A top-level value of the configuration document, discriminated the way
the source does (`typeof v === 'object' && v !== null && !Array.isArray(v)`). -/
inductive CVal
  | str (s : String)
  | num (n : Int)
  | boolv (b : Bool)
  | nullv
  | arr
  | obj (items : List (String × Item))
deriving DecidableEq

/-- The template configuration document: top-level keys in document order. -/
abbrev Config := List (String × CVal)

/-- `UserSelections`: per layer key, the list of selected item ids. -/
abbrev Selections := List (String × List String)

/-- The two dependency maps of `package.json` (post the
`if (!pkg.dependencies) pkg.dependencies = {}` normalization). -/
structure Pkg where
  dependencies : List (String × String)
  devDependencies : List (String × String)

/-- `const coreDeps = ['vue', 'vue-router', 'webextension-polyfill']`. -/
def coreDeps : List String := ["vue", "vue-router", "webextension-polyfill"]

/-- `const coreDevDeps = ['vite', '@vitejs/plugin-vue', '@crxjs/vite-plugin', 'typescript']`. -/
def coreDevDeps : List String := ["vite", "@vitejs/plugin-vue", "@crxjs/vite-plugin", "typescript"]

/-- The reserved metadata keys skipped by the possible-dependency scan,
in source order (features.ts:267). -/
def reservedKeys : List String :=
  ["templateType", "templateName", "templateDescription", "templateAuthor", "version"]

/-- `templateConfig[layerKey]` viewed as a layer: only an object value can
yield items (indexing any other value with an item id gives `undefined` in
the source, so such layers contribute nothing). -/
def cfgLayer (cfg : Config) (k : String) : Option (List (String × Item)) :=
  match lookupA cfg k with
  | some (.obj items) => some items
  | _ => none

/-- All dependency entries of selected items, in the iteration order of
the `for (const layerKey in userSelections)` / `for (const itemId of
selectedItems)` loops (unknown layer keys and unknown item ids are
silently inert). -/
def selectedItemsDeps (cfg : Config) (sel : Selections) : List Dep :=
  (sel.map (fun e =>
    match cfgLayer cfg e.1 with
    | none => []
    | some layerItems =>
      (e.2.map (fun itemId =>
        match lookupA layerItems itemId with
        | some item => item.dependencies
        | none => [])).flatten)).flatten

/-- Names of the dependencies with the given `dev` flag. -/
def depNames (l : List Dep) (dev : Bool) : List String :=
  (l.filter (fun d => d.dev = dev)).map Dep.name

/-- `requiredDeps` / `requiredDevDeps`: core names plus the names declared
by selected items (only membership in the JS `Set` matters). -/
def requiredNames (cfg : Config) (sel : Selections) (dev : Bool) : List String :=
  (if dev then coreDevDeps else coreDeps) ++ depNames (selectedItemsDeps cfg sel) dev

/-- Every dependency entry of every item of every non-reserved
object-valued layer (features.ts:261-285). -/
def allItemsDeps (cfg : Config) : List Dep :=
  (cfg.map (fun e =>
    match e.2 with
    | CVal.obj items =>
      if e.1 ∈ reservedKeys then []
      else (items.map (fun it => it.2.dependencies)).flatten
    | _ => [])).flatten

/-- `allPossibleDeps` / `allPossibleDevDeps`. -/
def possibleNames (cfg : Config) (dev : Bool) : List String :=
  depNames (allItemsDeps cfg) dev

/-- One step of the removal loop:
`if (!requiredDeps.has(dep) && pkg.dependencies[dep]) delete ...` —
`pkg.dependencies[dep]` is truthy iff the entry exists with a nonempty
version string. -/
def delStep (required : List String) (d : List (String × String)) (n : String) :
    List (String × String) :=
  if n ∉ required ∧ (lookupA d n).getD "" ≠ "" then eraseA d n else d

/-- The removal loop over the possible-name set. -/
def deletePossible (d : List (String × String)) (possible required : List String) :
    List (String × String) :=
  possible.foldl (delStep required) d

/-- The `(name, version)` pairs written by the explicit-version loop
(features.ts:304-324), in iteration order.  The source guard
`if (dep.version)` is JS truthiness: the write is skipped both when
`version` is missing and when it is the (falsy) empty string. -/
def versionWrites (cfg : Config) (sel : Selections) (dev : Bool) : List (String × String) :=
  ((selectedItemsDeps cfg sel).filter (fun d => d.dev = dev ∧ d.version.getD "" ≠ "")).map
    (fun d => (d.name, d.version.getD ""))

/-- Apply the explicit-version writes: `pkg.dependencies[dep.name] = dep.version`. -/
def applyWrites (m : List (String × String)) (ws : List (String × String)) :
    List (String × String) :=
  ws.foldl (fun m0 w => setA m0 w.1 w.2) m

/-- The Dependency Resolver (`updateDependencies`): deletions first, then
explicit-version writes, each map rewritten wholesale. -/
def updateDependencies (cfg : Config) (sel : Selections) (pkg : Pkg) : Pkg :=
  { dependencies :=
      applyWrites
        (deletePossible pkg.dependencies (possibleNames cfg false) (requiredNames cfg sel false))
        (versionWrites cfg sel false),
    devDependencies :=
      applyWrites
        (deletePossible pkg.devDependencies (possibleNames cfg true) (requiredNames cfg sel true))
        (versionWrites cfg sel true) }

theorem lookupA_delStep_ne (required : List String) (d : List (String × String))
    (p n : String) (hne : n ≠ p) : lookupA (delStep required d p) n = lookupA d n := by
  unfold delStep
  by_cases hc : p ∉ required ∧ (lookupA d p).getD "" ≠ ""
  · rw [if_pos hc, lookupA_eraseA, if_neg hne]
  · rw [if_neg hc]

theorem lookupA_deletePossible (required : List String) :
    ∀ (possible : List String) (d : List (String × String)) (n : String),
      lookupA (deletePossible d possible required) n =
        if n ∈ possible ∧ n ∉ required ∧ (lookupA d n).getD "" ≠ "" then none
        else lookupA d n := by
  intro possible
  induction possible with
  | nil =>
    intro d n
    rw [if_neg (by simp)]
    rfl
  | cons p rest ih =>
    intro d n
    show lookupA (deletePossible (delStep required d p) rest required) n = _
    rw [ih]
    by_cases hnp : n = p
    · subst hnp
      by_cases hc : n ∉ required ∧ (lookupA d n).getD "" ≠ ""
      · have hdel : delStep required d n = eraseA d n := if_pos hc
        rw [hdel, lookupA_eraseA, if_pos rfl]
        rw [if_neg (by simp), if_pos ⟨List.mem_cons_self n rest, hc⟩]
      · have hdel : delStep required d n = d := if_neg hc
        rw [hdel]
        have hnot : ¬ (n ∈ rest ∧ n ∉ required ∧ (lookupA d n).getD "" ≠ "") :=
          fun h => hc ⟨h.2.1, h.2.2⟩
        have hnot' : ¬ (n ∈ n :: rest ∧ n ∉ required ∧ (lookupA d n).getD "" ≠ "") :=
          fun h => hc ⟨h.2.1, h.2.2⟩
        rw [if_neg hnot, if_neg hnot']
    · rw [lookupA_delStep_ne required d p n hnp]
      by_cases hmem : n ∈ rest
      · have : (n ∈ p :: rest) := List.mem_cons_of_mem p hmem
        by_cases hc : n ∉ required ∧ (lookupA d n).getD "" ≠ ""
        · rw [if_pos ⟨hmem, hc⟩, if_pos ⟨this, hc⟩]
        · have h1 : ¬ (n ∈ rest ∧ n ∉ required ∧ (lookupA d n).getD "" ≠ "") :=
            fun h => hc ⟨h.2.1, h.2.2⟩
          have h2 : ¬ (n ∈ p :: rest ∧ n ∉ required ∧ (lookupA d n).getD "" ≠ "") :=
            fun h => hc ⟨h.2.1, h.2.2⟩
          rw [if_neg h1, if_neg h2]
      · have hmem' : ¬ n ∈ p :: rest := by
          intro h
          rcases List.mem_cons.mp h with h | h
          · exact hnp h
          · exact hmem h
        rw [if_neg (fun h => hmem h.1), if_neg (fun h => hmem' h.1)]

theorem lookupA_applyWrites_not_mem :
    ∀ (ws m : List (String × String)) (n : String),
      n ∉ ws.map Prod.fst → lookupA (applyWrites m ws) n = lookupA m n := by
  intro ws
  induction ws with
  | nil => intro m n _; rfl
  | cons w t ih =>
    intro m n h
    have hn1 : n ≠ w.1 := by
      intro hc
      exact h (by rw [List.map_cons]; exact hc ▸ List.mem_cons_self w.1 (t.map Prod.fst))
    have hn2 : n ∉ t.map Prod.fst := by
      intro hc
      exact h (by rw [List.map_cons]; exact List.mem_cons_of_mem w.1 hc)
    show lookupA (applyWrites (setA m w.1 w.2) t) n = lookupA m n
    rw [ih (setA m w.1 w.2) n hn2, lookupA_setA, if_neg hn1]

theorem lookupA_applyWrites_mem :
    ∀ (ws m : List (String × String)) (n : String),
      n ∈ ws.map Prod.fst → (lookupA (applyWrites m ws) n).isSome = true := by
  intro ws
  induction ws with
  | nil => intro m n h; cases h
  | cons w t ih =>
    intro m n h
    show (lookupA (applyWrites (setA m w.1 w.2) t) n).isSome = true
    by_cases hmem : n ∈ t.map Prod.fst
    · exact ih (setA m w.1 w.2) n hmem
    · have hn1 : n = w.1 := by
        rw [List.map_cons] at h
        rcases List.mem_cons.mp h with h' | h'
        · exact h'
        · exact absurd h' hmem
      rw [lookupA_applyWrites_not_mem t (setA m w.1 w.2) n hmem, lookupA_setA, if_pos hn1]
      rfl

theorem versionWrites_sub_required (cfg : Config) (sel : Selections) (dev : Bool)
    (n : String) (h : n ∈ (versionWrites cfg sel dev).map Prod.fst) :
    n ∈ requiredNames cfg sel dev := by
  simp only [versionWrites, List.map_map, List.mem_map, List.mem_filter,
    Function.comp] at h
  obtain ⟨d, ⟨hd, hcond⟩, hname⟩ := h
  have hdev : d.dev = dev := by
    rcases (by exact_mod_cast of_decide_eq_true hcond :
      d.dev = dev ∧ d.version.getD "" ≠ "") with ⟨h1, _⟩
    exact h1
  unfold requiredNames depNames
  apply List.mem_append_right
  simp only [List.mem_map, List.mem_filter]
  exact ⟨d, ⟨hd, by simp [hdev]⟩, hname⟩

/-- C1 (amended): a characterization of the resolver's final maps.  A name
is present afterwards iff it received an explicit-version write from a
selected item, or it was present before and not removed (removed = in the
possible set, not required, and bound to a truthy version string).  Names
outside the possible universe that receive no version write keep their
original entries unchanged, and a possible-but-unrequired name with a
truthy entry is always deleted. -/
theorem C1_dependency_resolution (cfg : Config) (sel : Selections) (pkg : Pkg) (n : String) :
    ((lookupA (updateDependencies cfg sel pkg).dependencies n).isSome = true ↔
      (n ∈ (versionWrites cfg sel false).map Prod.fst ∨
        ((lookupA pkg.dependencies n).isSome = true ∧
          ¬(n ∈ possibleNames cfg false ∧ n ∉ requiredNames cfg sel false ∧
            (lookupA pkg.dependencies n).getD "" ≠ ""))))
    ∧ ((lookupA (updateDependencies cfg sel pkg).devDependencies n).isSome = true ↔
      (n ∈ (versionWrites cfg sel true).map Prod.fst ∨
        ((lookupA pkg.devDependencies n).isSome = true ∧
          ¬(n ∈ possibleNames cfg true ∧ n ∉ requiredNames cfg sel true ∧
            (lookupA pkg.devDependencies n).getD "" ≠ ""))))
    ∧ (n ∉ possibleNames cfg false → n ∉ (versionWrites cfg sel false).map Prod.fst →
        lookupA (updateDependencies cfg sel pkg).dependencies n = lookupA pkg.dependencies n)
    ∧ (n ∉ possibleNames cfg true → n ∉ (versionWrites cfg sel true).map Prod.fst →
        lookupA (updateDependencies cfg sel pkg).devDependencies n = lookupA pkg.devDependencies n)
    ∧ (n ∈ possibleNames cfg false → n ∉ requiredNames cfg sel false →
        (lookupA pkg.dependencies n).getD "" ≠ "" →
        lookupA (updateDependencies cfg sel pkg).dependencies n = none) := by
  have hchar : ∀ (m : List (String × String)) (dev : Bool),
      lookupA (applyWrites (deletePossible m (possibleNames cfg dev) (requiredNames cfg sel dev))
          (versionWrites cfg sel dev)) n =
        if n ∈ (versionWrites cfg sel dev).map Prod.fst then
          lookupA (applyWrites (deletePossible m (possibleNames cfg dev) (requiredNames cfg sel dev))
            (versionWrites cfg sel dev)) n
        else if n ∈ possibleNames cfg dev ∧ n ∉ requiredNames cfg sel dev ∧
            (lookupA m n).getD "" ≠ "" then none
        else lookupA m n := by
    intro m dev
    by_cases hw : n ∈ (versionWrites cfg sel dev).map Prod.fst
    · rw [if_pos hw]
    · rw [if_neg hw, lookupA_applyWrites_not_mem _ _ _ hw,
        lookupA_deletePossible (requiredNames cfg sel dev) (possibleNames cfg dev) m n]
  refine ⟨?_, ?_, ?_, ?_, ?_⟩
  · show (lookupA (applyWrites _ _) n).isSome = true ↔ _
    by_cases hw : n ∈ (versionWrites cfg sel false).map Prod.fst
    · simp only [hw, true_or, iff_true]
      exact lookupA_applyWrites_mem _ _ _ hw
    · rw [lookupA_applyWrites_not_mem _ _ _ hw,
        lookupA_deletePossible (requiredNames cfg sel false) (possibleNames cfg false)
          pkg.dependencies n]
      by_cases hc : n ∈ possibleNames cfg false ∧ n ∉ requiredNames cfg sel false ∧
          (lookupA pkg.dependencies n).getD "" ≠ ""
      · rw [if_pos hc]
        simp [hw, hc]
      · rw [if_neg hc]
        simp [hw, hc]
  · show (lookupA (applyWrites _ _) n).isSome = true ↔ _
    by_cases hw : n ∈ (versionWrites cfg sel true).map Prod.fst
    · simp only [hw, true_or, iff_true]
      exact lookupA_applyWrites_mem _ _ _ hw
    · rw [lookupA_applyWrites_not_mem _ _ _ hw,
        lookupA_deletePossible (requiredNames cfg sel true) (possibleNames cfg true)
          pkg.devDependencies n]
      by_cases hc : n ∈ possibleNames cfg true ∧ n ∉ requiredNames cfg sel true ∧
          (lookupA pkg.devDependencies n).getD "" ≠ ""
      · rw [if_pos hc]
        simp [hw, hc]
      · rw [if_neg hc]
        simp [hw, hc]
  · intro hp hw
    show lookupA (applyWrites _ _) n = _
    rw [lookupA_applyWrites_not_mem _ _ _ hw,
      lookupA_deletePossible (requiredNames cfg sel false) (possibleNames cfg false)
        pkg.dependencies n, if_neg (fun h => hp h.1)]
  · intro hp hw
    show lookupA (applyWrites _ _) n = _
    rw [lookupA_applyWrites_not_mem _ _ _ hw,
      lookupA_deletePossible (requiredNames cfg sel true) (possibleNames cfg true)
        pkg.devDependencies n, if_neg (fun h => hp h.1)]
  · intro hp hr ht
    have hw : n ∉ (versionWrites cfg sel false).map Prod.fst :=
      fun h => hr (versionWrites_sub_required cfg sel false n h)
    show lookupA (applyWrites _ _) n = none
    rw [lookupA_applyWrites_not_mem _ _ _ hw,
      lookupA_deletePossible (requiredNames cfg sel false) (possibleNames cfg false)
        pkg.dependencies n, if_pos ⟨hp, hr, ht⟩]

/-- Witness for `C1_dependency_resolution`: a hand-added dependency the
configuration never mentions keeps its entry. -/
theorem C1_dependency_resolution_witness :
    lookupA (updateDependencies [] []
        { dependencies := [("lodash", "^4.0.0")], devDependencies := [] }).dependencies
      "lodash" = some "^4.0.0" := by
  have h := (C1_dependency_resolution [] []
    { dependencies := [("lodash", "^4.0.0")], devDependencies := [] } "lodash").2.2.1
    (by decide) (by decide)
  rw [h]
  rfl

/-- C1 counterexample.  In the configuration below, `pinia` is declared
only by the unselected item `sm` and is possible, so the claim demands it
be absent afterwards; but its pre-existing entry is the (falsy) empty
string, so the code keeps it.  Moreover the selected item declares `axios`
with an explicit version and `axios` is not in the pre-existing manifest,
yet it is present afterwards, against the claim's intersection with the
pre-existing universe. -/
theorem C1_counterexample :
    "pinia" ∈ possibleNames
        [("features", CVal.obj
          [("sm", { dependencies := [{ name := "pinia" }] }),
           ("http", { dependencies := [{ name := "axios", version := some "^1.0.0" }] })])]
        false ∧
    "pinia" ∉ requiredNames
        [("features", CVal.obj
          [("sm", { dependencies := [{ name := "pinia" }] }),
           ("http", { dependencies := [{ name := "axios", version := some "^1.0.0" }] })])]
        [("features", ["http"])] false ∧
    lookupA (updateDependencies
        [("features", CVal.obj
          [("sm", { dependencies := [{ name := "pinia" }] }),
           ("http", { dependencies := [{ name := "axios", version := some "^1.0.0" }] })])]
        [("features", ["http"])]
        { dependencies := [("pinia", ""), ("vue", "^3.0.0")], devDependencies := [] }).dependencies
      "pinia" = some "" ∧
    lookupA ({ dependencies := [("pinia", ""), ("vue", "^3.0.0")], devDependencies := [] } : Pkg).dependencies
      "axios" = none ∧
    lookupA (updateDependencies
        [("features", CVal.obj
          [("sm", { dependencies := [{ name := "pinia" }] }),
           ("http", { dependencies := [{ name := "axios", version := some "^1.0.0" }] })])]
        [("features", ["http"])]
        { dependencies := [("pinia", ""), ("vue", "^3.0.0")], devDependencies := [] }).dependencies
      "axios" = some "^1.0.0" := by
  refine ⟨by decide, by decide, by decide, by decide, by decide⟩

/-! ## Layer-key discovery (C5)

Three places compute "which top-level keys are layers":
  * the removal loop (`applyTemplateConfig`, features.ts:90-92) keeps every
    non-null, non-array, object-valued key — with **no** reserved-name
    exclusion;
  * the possible-dependency scan of the resolver (features.ts:261-268)
    keeps object-valued keys and excludes all five reserved names;
  * the prompt (`promptOptions`, prompts.js:83-91) keeps object-valued keys
    and excludes only `templateName` and `templateType`.
-/

/-- `typeof v === 'object' && v !== null && !Array.isArray(v)`. -/
def isLayerVal : CVal → Bool
  | .obj _ => true
  | _ => false

/-- The layer keys iterated by the removal loop. -/
def removalLayerKeys (cfg : Config) : List String :=
  (cfg.filter (fun e => isLayerVal e.2)).map Prod.fst

/-- The layer keys iterated by the possible-dependency scan. -/
def resolverLayerKeys (cfg : Config) : List String :=
  (cfg.filter (fun e => isLayerVal e.2 && decide (e.1 ∉ reservedKeys))).map Prod.fst

/-- The layer keys the prompt offers (prompts.js:83-91). -/
def promptLayerKeys (cfg : Config) : List String :=
  (cfg.filter (fun e => isLayerVal e.2 && decide (e.1 ∉ ["templateName", "templateType"]))).map
    Prod.fst

/-- Definition following the spec's words (§4.2): every object-valued
top-level key except the five reserved metadata keys, in document order. -/
def specLayerKeys (cfg : Config) : List String :=
  (cfg.filter (fun e => isLayerVal e.2 && decide
    (e.1 ∉ ["templateName", "templateType", "templateDescription", "templateAuthor", "version"]))).map
    Prod.fst

theorem mem_reservedKeys_iff (s : String) :
    s ∈ reservedKeys ↔
      s ∈ ["templateName", "templateType", "templateDescription", "templateAuthor", "version"] := by
  simp [reservedKeys]
  tauto

theorem not_mem_spec_five {s : String} (hm : s ∉ reservedKeys) :
    ¬s = "templateName" ∧ ¬s = "templateType" ∧ ¬s = "templateDescription" ∧
      ¬s = "templateAuthor" ∧ ¬s = "version" := by
  rw [mem_reservedKeys_iff] at hm
  simpa using hm

/-- C5 (amended): the resolver's layer-key list is exactly the one the
spec describes; the removal loop applies no reserved-name exclusion and
the prompt excludes only `templateName` and `templateType`, so all three
agree with the spec's list only when no reserved metadata key holds an
object value. -/
theorem C5_layer_keys (cfg : Config)
    (h : ∀ e ∈ cfg, e.1 ∈ reservedKeys → isLayerVal e.2 = false) :
    resolverLayerKeys cfg = specLayerKeys cfg ∧
    removalLayerKeys cfg = specLayerKeys cfg ∧
    promptLayerKeys cfg = specLayerKeys cfg := by
  have hres : resolverLayerKeys cfg = specLayerKeys cfg := by
    unfold resolverLayerKeys specLayerKeys
    congr 1
    apply List.filter_congr
    intro e _
    by_cases hl : isLayerVal e.2
    · simp only [hl, Bool.true_and]
      by_cases hm : e.1 ∈ reservedKeys
      · simp [hm, (mem_reservedKeys_iff e.1).mp hm]
      · simp [hm, not_mem_spec_five hm]
    · simp [Bool.eq_false_iff.mpr hl]
  refine ⟨hres, ?_, ?_⟩
  · unfold removalLayerKeys specLayerKeys
    congr 1
    apply List.filter_congr
    intro e he
    by_cases hl : isLayerVal e.2
    · have hm : e.1 ∉ reservedKeys := fun hc => by
        have := h e he hc
        rw [hl] at this
        cases this
      simp [hl, not_mem_spec_five hm]
    · simp [Bool.eq_false_iff.mpr hl]
  · unfold promptLayerKeys specLayerKeys
    congr 1
    apply List.filter_congr
    intro e he
    by_cases hl : isLayerVal e.2
    · have hm : e.1 ∉ reservedKeys := fun hc => by
        have := h e he hc
        rw [hl] at this
        cases this
      have h2 : e.1 ∉ (["templateName", "templateType"] : List String) := by
        intro hc
        apply hm
        rcases List.mem_cons.mp hc with h' | h'
        · rw [h']; exact (mem_reservedKeys_iff _).mpr (by simp)
        · rcases List.mem_cons.mp h' with h'' | h''
          · rw [h'']; exact (mem_reservedKeys_iff _).mpr (by simp)
          · cases h''
      simp [hl, h2, not_mem_spec_five hm]
    · simp [Bool.eq_false_iff.mpr hl]

/-- Witness for `C5_layer_keys` on a configuration whose reserved keys all
hold scalars. -/
theorem C5_layer_keys_witness :
    resolverLayerKeys [("templateName", CVal.str "x"), ("pages", CVal.obj [])]
        = ["pages"] ∧
    removalLayerKeys [("templateName", CVal.str "x"), ("pages", CVal.obj [])]
        = ["pages"] ∧
    promptLayerKeys [("templateName", CVal.str "x"), ("pages", CVal.obj [])]
        = ["pages"] := by
  have h := C5_layer_keys [("templateName", CVal.str "x"), ("pages", CVal.obj [])]
    (by decide)
  refine ⟨h.1.trans (by decide), h.2.1.trans (by decide), h.2.2.trans (by decide)⟩

/-- C5 counterexample.  When the reserved key `version` holds an object,
the removal loop and the prompt treat it as a layer while the claimed
layer-key set excludes it, so the three consumers do not share the claimed
set. -/
theorem C5_counterexample :
    removalLayerKeys [("version", CVal.obj [])] = ["version"] ∧
    promptLayerKeys [("version", CVal.obj [])] = ["version"] ∧
    specLayerKeys [("version", CVal.obj [])] = [] ∧
    removalLayerKeys [("version", CVal.obj [])] ≠ specLayerKeys [("version", CVal.obj [])] ∧
    promptLayerKeys [("version", CVal.obj [])] ≠ specLayerKeys [("version", CVal.obj [])] := by
  refine ⟨by decide, by decide, by decide, by decide, by decide⟩

/-! ## Config Loader (`loadTemplateConfig`, features.ts:53-72)

The loader reads exactly one path, `projectDir/template.config.json`.  The
file store maps a path to `none` (no file), `some none` (a file whose
contents `fs.readJson` rejects), or `some (some cfg)` (a file parsing to
`cfg`); the parse itself is `fs-extra` library code, represented by the
store.  The loader either returns the parsed configuration, throws the
not-found error carrying the directory path, or re-throws the parse
error. -/

/-- Outcome of `loadTemplateConfig`. -/
inductive LoadResult
  | ok (cfg : Config)
  | notFound (dir : String)
  | parseError

/-- The configuration file name. -/
def configFileName : String := "template.config.json"

/-- `loadTemplateConfig(projectDir)`. -/
def loadTemplateConfig (store : String → Option (Option Config)) (projectDir : String) :
    LoadResult :=
  match store (pathJoin projectDir configFileName) with
  | none => .notFound projectDir
  | some none => .parseError
  | some (some cfg) => .ok cfg

/-- C8: the loader returns the parsed configuration when the file is
present and valid, fails with the not-found error carrying the directory
path when it is absent, fails with the parse error when it is present but
invalid, and depends on nothing but the contents of that single path (no
other side effect or read). -/
theorem C8_config_loader (store store' : String → Option (Option Config)) (projectDir : String) :
    (store (pathJoin projectDir configFileName) = none →
      loadTemplateConfig store projectDir = .notFound projectDir)
    ∧ (∀ cfg, store (pathJoin projectDir configFileName) = some (some cfg) →
        loadTemplateConfig store projectDir = .ok cfg)
    ∧ (store (pathJoin projectDir configFileName) = some none →
        loadTemplateConfig store projectDir = .parseError)
    ∧ (store (pathJoin projectDir configFileName) = store' (pathJoin projectDir configFileName) →
        loadTemplateConfig store projectDir = loadTemplateConfig store' projectDir) := by
  refine ⟨?_, ?_, ?_, ?_⟩
  · intro h
    unfold loadTemplateConfig
    rw [h]
  · intro cfg h
    unfold loadTemplateConfig
    rw [h]
  · intro h
    unfold loadTemplateConfig
    rw [h]
  · intro h
    unfold loadTemplateConfig
    rw [h]

/-- Witness for `C8_config_loader` on a one-file store. -/
theorem C8_config_loader_witness :
    loadTemplateConfig
      (fun p => if p = "tmpl/template.config.json" then some (some []) else none) "tmpl"
      = LoadResult.ok [] ∧
    loadTemplateConfig
      (fun p => if p = "tmpl/template.config.json" then some (some []) else none) "other"
      = LoadResult.notFound "other" := by
  constructor
  · exact (C8_config_loader
      (fun p => if p = "tmpl/template.config.json" then some (some []) else none)
      (fun _ => none) "tmpl").2.1 [] (by decide)
  · exact (C8_config_loader
      (fun p => if p = "tmpl/template.config.json" then some (some []) else none)
      (fun _ => none) "other").1 (by decide)

/-! ## Manifest Patcher, source-embedded form (`updateManifest`, features.ts:386-427)

The TypeScript branch removes each key's `key: value` block by one of
three regexes (leading comma, trailing comma, bare) and then collapses
stray comma sequences.  The regexes are compiled with flags `gms` and use
only: literals, character classes, ordered alternation, greedy and lazy
star, zero-width lookahead, and multiline `$`.  We embed exactly those
constructs and a standard leftmost-first backtracking matcher (the
semantics of the JS engine for these patterns), then evaluate the patcher
on concrete content. -/

/-- Regular-expression AST for the constructs the three regexes use. -/
inductive RE
  | eps
  | chr (c : Char)
  | cls (neg : Bool) (cs : List Char)
  | seq (a b : RE)
  | alt (a b : RE)
  | star (greedy : Bool) (r : RE)
  | look (r : RE)
  | eol

/-- Backtracking matcher in continuation-passing style with the
leftmost-first semantics of JS regexes: ordered alternation, greedy and
lazy repetition (an iteration must consume at least one character — the
no-empty-iteration rule), zero-width lookahead, and multiline `$` (end of
input or before a line terminator).  `fuel` bounds star unrollings; every
unrolling consumes a character, so any sufficiently large fuel yields the
true backtracking semantics. -/
def reM (s : List Char) : Nat → RE → Nat → (Nat → Option Nat) → Option Nat
  | 0, _, _, _ => none
  | fuel + 1, re, i, k =>
    match re with
    | .eps => k i
    | .chr c =>
      match s[i]? with
      | some c' => if c' = c then k (i + 1) else none
      | none => none
    | .cls neg cs =>
      match s[i]? with
      | some c' => if decide (c' ∈ cs) = !neg then k (i + 1) else none
      | none => none
    | .seq a b => reM s fuel a i (fun j => reM s fuel b j k)
    | .alt a b =>
      match reM s fuel a i k with
      | some r => some r
      | none => reM s fuel b i k
    | .star true r =>
      match reM s fuel r i (fun j => if i < j then reM s fuel (.star true r) j k else none) with
      | some res => some res
      | none => k i
    | .star false r =>
      match k i with
      | some res => some res
      | none => reM s fuel r i (fun j => if i < j then reM s fuel (.star false r) j k else none)
    | .look r =>
      match reM s fuel r i (fun j => some j) with
      | some _ => k i
      | none => none
    | .eol =>
      if i = s.length ∨ s[i]? = some '\n' ∨ s[i]? = some '\r' then k i else none

/-- Fuel that vastly over-approximates the attainable recursion depth of
the matcher on `s` (the fuel only bounds depth; the search work itself is
what the backtracking explores, independent of the fuel value). -/
def reFuel (s : List Char) : Nat := 4096 * (s.length + 4)

/-- Leftmost-match search from position `i`, with enough fuel to scan the
whole subject. -/
def reFindGo (s : List Char) (re : RE) : Nat → Nat → Option (Nat × Nat)
  | _, 0 => none
  | i, fp + 1 =>
    match reM s (reFuel s) re i some with
    | some j => some (i, j)
    | none => if i < s.length then reFindGo s re (i + 1) fp else none

/-- Start and end of the leftmost match at or after position `i`. -/
def reFind (s : List Char) (re : RE) (i : Nat) : Option (Nat × Nat) :=
  reFindGo s re i (s.length + 1)

/-- `content.replace(regex, '')` with flag `g`: delete every
non-overlapping leftmost match, resuming at each match end (an empty match
advances by one character, as JS does with `lastIndex`). -/
def replaceAllGo (s : List Char) (re : RE) : Nat → Nat → List Char
  | i, 0 => s.drop i
  | i, fp + 1 =>
    match reFind s re i with
    | none => s.drop i
    | some (a, b) =>
      (s.drop i).take (a - i) ++
        (if a < b then replaceAllGo s re b fp
         else
           match s[a]? with
           | some c => c :: replaceAllGo s re (a + 1) fp
           | none => [])

/-- Global deletion of all matches of `re` in `s`. -/
def jsReplaceAll (s : List Char) (re : RE) : List Char := replaceAllGo s re 0 (s.length + 1)

/-- `content.match(regex)` truthiness: does `re` match anywhere? -/
def hasMatch (s : List Char) (re : RE) : Bool := (reFind s re 0).isSome

/-- A literal string as a regex. -/
def reStr : List Char → RE
  | [] => .eps
  | c :: t => .seq (.chr c) (reStr t)

/-- The `\s` class (ASCII part; the inputs considered are ASCII). -/
def wsChars : List Char := [' ', '\t', '\n', '\r', '\u000B', '\u000C']

/-- `\s*` (greedy). -/
def wsStar : RE := .star true (.cls false wsChars)

/-- `[^{}]`. -/
def nonBrace : RE := .cls true ['{', '}']

/-- `{[^{}]*(?:\{[^{}]*\}[^{}]*)*}` — a brace block balanced to nesting
depth two at most. -/
def braceBlock : RE :=
  .seq (.chr '{')
    (.seq (.star true nonBrace)
      (.seq
        (.star true
          (.seq (.chr '{') (.seq (.star true nonBrace) (.seq (.chr '}') (.star true nonBrace)))))
        (.chr '}')))

/-- `[^\[\]]`. -/
def nonBracket : RE := .cls true ['[', ']']

/-- `\[[^\[\]]*(?:\[[^\[\]]*\][^\[\]]*)*\]`. -/
def bracketBlock : RE :=
  .seq (.chr '[')
    (.seq (.star true nonBracket)
      (.seq
        (.star true
          (.seq (.chr '[') (.seq (.star true nonBracket) (.seq (.chr ']') (.star true nonBracket)))))
        (.chr ']')))

/-- The double-quote and single-quote characters. -/
def dq : Char := Char.ofNat 34

/-- The single-quote character. -/
def sq : Char := Char.ofNat 39

/-- `"[^"]*"`. -/
def dquoted : RE := .seq (.chr dq) (.seq (.star true (.cls true [dq])) (.chr dq))

/-- A single-quoted literal, `[^']*` between two quotes. -/
def squoted : RE := .seq (.chr sq) (.seq (.star true (.cls true [sq])) (.chr sq))

/-- `[^,}\]\r\n]*` — the final fallback alternative of the value matcher. -/
def tailAltRE : RE := .star true (.cls true [',', '}', ']', '\r', '\n'])

/-- The value sub-expression
`[^,}]*?({...})|\[...\]|"[^"]*"|'[^']*'|[^,}\]\r\n]*` (alternatives in
source order; concatenation binds tighter than `|`). -/
def valueRE : RE :=
  .alt (.seq (.star false (.cls true [',', '}'])) braceBlock)
    (.alt bracketBlock (.alt dquoted (.alt squoted tailAltRE)))

/-- `key\s*:\s*(value)`. -/
def bodyRE (key : String) : RE :=
  .seq (reStr key.data) (.seq wsStar (.seq (.chr ':') (.seq wsStar valueRE)))

/-- `\r?` . -/
def optCR : RE := .alt (.chr '\r') .eps

/-- `(?=\s*[}]|\s*$|\r?\n)` (the `standardRegex` lookahead). -/
def stdLook : RE :=
  .look (.alt (.seq wsStar (.cls false ['}']))
    (.alt (.seq wsStar .eol) (.seq optCR (.chr '\n'))))

/-- `(?=\s*[,}]|\s*$|\r?\n)` (the `leadingCommaRegex` lookahead). -/
def leadLook : RE :=
  .look (.alt (.seq wsStar (.cls false [',', '}']))
    (.alt (.seq wsStar .eol) (.seq optCR (.chr '\n'))))

/-- `(?=\s*,)` (the `trailingCommaRegex` lookahead). -/
def trailLook : RE := .look (.seq wsStar (.chr ','))

/-- `leadingCommaRegex`: `(,\s*)(key\s*:\s*(...))(?=\s*[,}]|\s*$|\r?\n)`. -/
def leadingRE (key : String) : RE :=
  .seq (.chr ',') (.seq wsStar (.seq (bodyRE key) leadLook))

/-- `trailingCommaRegex`: `(key\s*:\s*(...))(?=\s*,)`. -/
def trailingRE (key : String) : RE := .seq (bodyRE key) trailLook

/-- `standardRegex`: `(key\s*:\s*(...))(?=\s*[}]|\s*$|\r?\n)`. -/
def stdRE (key : String) : RE := .seq (bodyRE key) stdLook

/-- Whitespace test for the cleanup scanner. -/
def isWsChar (c : Char) : Bool := decide (c ∈ wsChars)

/-- The cleanup pass `content.replace(/,(\s*,|\s*\}|\s*\])/g, '$1')`: each
match is a comma, a whitespace run, and a terminator `,`/`}`/`]`; the
replacement `$1` re-emits everything but the leading comma, and scanning
resumes after the consumed terminator (hence `,,,` collapses to `,,`, not
to `,`). -/
def cleanupGo : Nat → List Char → List Char
  | 0, s => s
  | _ + 1, [] => []
  | f + 1, c :: rest =>
    if c = ',' then
      match rest.dropWhile isWsChar with
      | d :: rest' =>
        if d = ',' ∨ d = '}' ∨ d = ']' then
          rest.takeWhile isWsChar ++ d :: cleanupGo f rest'
        else c :: cleanupGo f rest
      | [] => c :: cleanupGo f rest
    else c :: cleanupGo f rest

/-- The cleanup pass over the whole content (every scanner step consumes
at least one character, so `s.length` steps always finish the scan). -/
def cleanupCommas (s : List Char) : List Char := cleanupGo s.length s

/-- One key iteration of the TS branch (features.ts:390-423): try the
leading-comma regex, else the trailing-comma regex, else the bare regex
(each applied globally with empty replacement, setting `changed`), then
run the comma-cleanup pass (the source guards the cleanup replace with a
match test, which equals replacing unconditionally). -/
def manifestTsStep (st : List Char × Bool) (key : String) : List Char × Bool :=
  let c1 :=
    if hasMatch st.1 (leadingRE key) then (jsReplaceAll st.1 (leadingRE key), true)
    else if hasMatch st.1 (trailingRE key) then (jsReplaceAll st.1 (trailingRE key), true)
    else if hasMatch st.1 (stdRE key) then (jsReplaceAll st.1 (stdRE key), true)
    else st
  (cleanupCommas c1.1, c1.2)

/-- The TS branch of `updateManifest` over all keys, with the `changed`
flag. -/
def updateManifestTs (content : List Char) (keys : List String) : List Char × Bool :=
  keys.foldl manifestTsStep (content, false)

/-- The manifest file content after the TS branch: the patched text is
written back only when some key matched (`if (changed) ...`). -/
def updateManifestTsFile (content : List Char) (keys : List String) : List Char :=
  let r := updateManifestTs content keys
  if r.2 then r.1 else content

/-- Occurrences of a character. -/
def countChar (s : List Char) (c : Char) : Nat := (s.filter (fun x => x = c)).length

/-- The manifest content `{a:{b:{c:{d:1}}}}`: key `a` bound to an object
nested three deep. -/
def c2content : List Char :=
  ['{', 'a', ':', '{', 'b', ':', '{', 'c', ':', '{', 'd', ':', '1', '}', '}', '}', '}']

/-- C2 (code bug): patching the key `a` out of `{a:{b:{c:{d:1}}}}` yields
`{}}` — the value matcher balances braces only to depth two, the fallback
alternative `[^,}\]\r\n]*` then matches a strict prefix of the value, and
the patched file has one opening against two closing braces, violating
the required balance invariant ("otherwise it must not match"). -/
theorem C2_manifest_balance_bug :
    updateManifestTsFile c2content ["a"] = ['{', '}', '}'] ∧
    countChar (updateManifestTsFile c2content ["a"]) '{' = 1 ∧
    countChar (updateManifestTsFile c2content ["a"]) '}' = 2 := by
  refine ⟨by decide, by decide, by decide⟩

end Kern
